import Mathlib

/-!
Verification development for dSQ (dSQ.py), a utility that turns a task file
into a Slurm job-array submission.  The Python source is shallowly embedded:
Python strings are modelled as lists of characters (`PStr`), dictionaries as
insertion-ordered association lists, and fatal terminations (uncaught
exceptions and calls to the system exit) as explicit error values of an
`Except` result.
-/

namespace DSQ

/-- A Python string, modelled as its sequence of characters. -/
abbrev PStr := List Char

/-! ### Decimal rendering of integers

Python renders integers in decimal via `str` / `format`.  `natReprA` is a
fuel-indexed structural recursion (the fuel `n + 1` always suffices since the
argument shrinks by a factor of ten each step). -/

def natReprA : Nat → Nat → List Char
  | 0, _ => []
  | f + 1, n => if n < 10 then [Nat.digitChar n] else natReprA f (n / 10) ++ [Nat.digitChar (n % 10)]

/-- Decimal rendering of a natural number, as Python `str` does. -/
def natRepr (n : Nat) : List Char := natReprA (n + 1) n

/-- Decimal rendering of an integer, as Python `str` does. -/
def intRepr (n : Int) : List Char :=
  if n < 0 then '-' :: natRepr n.natAbs else natRepr n.toNat

/-- Model of Python `str.split(sep)` for a single-character separator. -/
def splitOnChar (sep : Char) : List Char → List (List Char)
  | [] => [[]]
  | c :: cs =>
    match splitOnChar sep cs with
    | [] => [[c]]
    | p :: ps => if c = sep then [] :: p :: ps else (c :: p) :: ps

/-- Model of Python `sep.join(pieces)` for a single-character separator. -/
def joinWith (sep : Char) : List (List Char) → List Char
  | [] => []
  | [p] => p
  | p :: q :: ps => p ++ sep :: joinWith sep (q :: ps)

/-! ### The Range Encoder (dSQ.py lines 68-79)

`_collapse_ranges` in the source iterates `itertools.groupby` over
`enumerate(tasknums)` with key `t - i` (value minus position) and yields, for
each group, the pair of its first and last value.  Adjacent elements share a
group exactly when the value minus its position is unchanged, i.e. when each
value is the previous one plus one, so the groups are the maximal runs of
successive increments by one.  `collapseAux start prev
rest` processes `rest` while the current run began at `start` and last saw
`prev`. -/

def collapseAux (start prev : Int) : List Int → List (Int × Int)
  | [] => [(start, prev)]
  | t :: ts => if t = prev + 1 then collapseAux start t ts else (start, prev) :: collapseAux t t ts

def collapse_ranges : List Int → List (Int × Int)
  | [] => []
  | t :: ts => collapseAux t t ts

/-- One pair of `format_range`: the dash-joined pair when the bounds differ,
else the bare rendering of the single bound (dSQ.py line 79). -/
def renderPair (p : Int × Int) : List Char :=
  if p.1 ≠ p.2 then intRepr p.1 ++ '-' :: intRepr p.2 else intRepr p.1

/-- Function `format_range` from dSQ.py: collapse, render each pair, join
with commas. -/
def format_range (tasknums : List Int) : String :=
  ⟨joinWith ',' ((collapse_ranges tasknums).map renderPair)⟩

/-! ### Decoding a range string (the specification side, for claim C1)

The decoder expands each comma-separated component of the output: a component
`a-b` becomes the integers `a, a+1, ..., b`, a bare integer component becomes
itself.  Integers are parsed from their decimal rendering, with an optional
leading minus sign. -/

/-- The inclusive list of integers `a, a+1, ..., b`. -/
def intRange (a b : Int) : List Int :=
  (List.range ((b - a).toNat + 1)).map (fun (k : Nat) => a + (k : Int))

/-- Accumulate the value of a list of decimal digit characters. -/
def digitsToNat (acc : Nat) : List Char → Nat
  | [] => acc
  | c :: cs => digitsToNat (acc * 10 + (c.toNat - 48)) cs

/-- Parse a leading run of decimal digits; fails when there is none. -/
def parseNatLead (cs : List Char) : Option (Nat × List Char) :=
  if cs.takeWhile Char.isDigit = [] then none
  else some (digitsToNat 0 (cs.takeWhile Char.isDigit), cs.dropWhile Char.isDigit)

/-- Parse a leading integer (optional minus sign, then digits). -/
def parseIntLead : List Char → Option (Int × List Char)
  | [] => none
  | c :: cs =>
    if c = '-' then (parseNatLead cs).map (fun p => (-(p.1 : Int), p.2))
    else (parseNatLead (c :: cs)).map (fun p => ((p.1 : Int), p.2))

/-- Decode one component: either `a-b`, expanded to `a..b`, or a bare integer. -/
def parseComponent (cs : List Char) : Option (List Int) :=
  match parseIntLead cs with
  | none => none
  | some (a, rest) =>
    match rest with
    | [] => some [a]
    | c :: rt =>
      if c = '-' then
        match parseIntLead rt with
        | some (b, rest2) => if rest2 = [] then some (intRange a b) else none
        | none => none
      else none

/-- Decode a list of components, concatenating their expansions left to right. -/
def decodeComponents : List (List Char) → Option (List Int)
  | [] => some []
  | c :: cs =>
    match parseComponent c, decodeComponents cs with
    | some xs, some ys => some (xs ++ ys)
    | _, _ => none

/-- Decode a range string: split on commas and expand every component.  The
empty string has no components and decodes to the empty sequence. -/
def decodeRangeString (s : String) : Option (List Int) :=
  if s.data = [] then some [] else decodeComponents (splitOnChar ',' s.data)

/-- Expansion of a list of inclusive pairs (used to state the round trip). -/
def expandPairs : List (Int × Int) → List Int
  | [] => []
  | p :: ps => intRange p.1 p.2 ++ expandPairs ps

/-! ### The Argument Merger: `parse_user_slurm_args` (dSQ.py lines 83-112)

The slurm_args entry of job_info is a Python dict from option names to
values; the
parser loop writes string values and, on the success path only, finally stores
the list of passthrough tokens under the key `extra`.  The dict is modelled as
an insertion-ordered association list with values that are either a string or
a list of strings; assignment updates an existing key in place and appends a
missing key at the end, exactly as Python dicts do.  The three ways the Python
function dies - `ValueError` from unpacking `arg.split('=')` into two names,
`IndexError` from `arg_list[i]` past the end, and `sys.exit("Error parsing
arguments")` - are the three error values; each terminates the process with a
nonzero exit status before `extra` is ever written. -/

inductive PVal where
  | str : PStr → PVal
  | strList : List PStr → PVal
deriving DecidableEq

/-- An insertion-ordered model of a Python dict with string keys. -/
abbrev OptionMap := List (PStr × PVal)

def keys (m : OptionMap) : List PStr := m.map (fun kv => kv.1)

/-- Python dict assignment `m[k] = v`: overwrite in place, else append. -/
def setKey (m : OptionMap) (k : PStr) (v : PVal) : OptionMap :=
  if k ∈ keys m then m.map (fun kv => if kv.1 = k then (k, v) else kv) else m ++ [(k, v)]

/-- The alias table `slurm_flag_dict` from dSQ.py lines 61-63. -/
def slurm_flag_dict : List (PStr × PStr) :=
  [("-J".data, "--job-name".data), ("-n".data, "--ntasks".data), ("-c".data, "--cpus-per-task".data)]

/-- Membership in the alias table together with the looked-up long name. -/
def flagLookup (k : PStr) : Option PStr :=
  (slurm_flag_dict.find? (fun p => p.1 == k)).map (fun p => p.2)

/-- Python startswith with a double dash. -/
def startsWithDD (s : PStr) : Bool :=
  match s with
  | c1 :: c2 :: _ => c1 == '-' && c2 == '-'
  | _ => false

/-- Python startswith with a single dash. -/
def startsWithD (s : PStr) : Bool :=
  match s with
  | c :: _ => c == '-'
  | _ => false

inductive ParseErr where
  /-- The ValueError raised by unpacking the split of a long token on the
  equals sign when the split does not have exactly two parts; uncaught, it
  kills the process (exit status 1). -/
  | valueError : ParseErr
  /-- The IndexError raised by indexing arg_list past its end when a short
  flag is the last token; uncaught, it kills the process (exit status 1). -/
  | indexError : ParseErr
  /-- The call sys.exit with the parse-error message, exit status 1. -/
  | sysExit : ParseErr
deriving DecidableEq

/-- The `while i < len(arg_list)` loop of `parse_user_slurm_args`, carrying the
dict of slurm args and the `extra_slurm_args` list accumulated so far. -/
def parseArgsLoop (slurm_args : OptionMap) (extra : List PStr) :
    List PStr → Except ParseErr (OptionMap × List PStr)
  | [] => .ok (slurm_args, extra)
  | arg :: rest =>
    if startsWithDD arg then
      match splitOnChar '=' arg with
      | [key, value] =>
        if key ∈ keys slurm_args then
          parseArgsLoop (setKey slurm_args key (.str value)) extra rest
        else
          parseArgsLoop slurm_args (extra ++ [arg]) rest
      | _ => .error .valueError
    else if startsWithD arg then
      match rest with
      | [] => .error .indexError
      | value :: rest2 =>
        match flagLookup arg with
        | some longKey => parseArgsLoop (setKey slurm_args longKey (.str value)) extra rest2
        | none => parseArgsLoop slurm_args (extra ++ [arg ++ ' ' :: value]) rest2
    else .error .sysExit

/-- Top level of `parse_user_slurm_args`: run the loop, then (success path
only) store the passthrough list under the key `extra`. -/
def parse_user_slurm_args (slurm_args : OptionMap) (arg_list : List PStr) :
    Except ParseErr OptionMap :=
  match parseArgsLoop slurm_args [] arg_list with
  | .ok (m, extra) => .ok (setKey m "extra".data (.strList extra))
  | .error e => .error e

/-! ### Task classification and the startup scan (dSQ.py lines 184-200)

Python enumerate iterates the lines of the task file (each line keeps its
trailing newline, as Python file iteration yields it); a line counts as a task
when it neither starts with the hash character nor is empty after rstrip.
After the scan the code runs, in this order: indexing task_id_list at -1
(which raises IndexError on an empty list), the capacity check ending in
sys.exit with status 1, and the empty-task check ending in sys.exit with
status 1. -/

/-- The characters Python `str.rstrip()` strips. -/
def isPySpace (c : Char) : Bool :=
  c == ' ' || c == '\t' || c == '\n' || c == '\x0d' || c == '\x0b' || c == '\x0c'

/-- Python `str.rstrip()`. -/
def rstrip (l : PStr) : PStr := (l.reverse.dropWhile isPySpace).reverse

/-- Python startswith with the hash character. -/
def startsWithHash (l : PStr) : Bool :=
  match l with
  | c :: _ => c == '#'
  | _ => false

/-- The task test of dSQ.py line 186: the line neither starts with the hash
character nor is empty after rstrip. -/
def taskLine (line : PStr) : Bool := !(startsWithHash line || rstrip line == [])

/-- The indices appended by the scan loop, starting at index `n`. -/
def taskIdsFrom (n : Nat) : List PStr → List Nat
  | [] => []
  | l :: ls => if taskLine l then n :: taskIdsFrom (n + 1) ls else taskIdsFrom (n + 1) ls

/-- The task_id_list of job_info: zero-based indices of the qualifying lines
among all lines of the file. -/
def task_id_list (lines : List PStr) : List Nat := taskIdsFrom 0 lines

/-- The message printed by the capacity check (dSQ.py line 193), with the
format fields substituted. -/
def capacityMsg (maxIdx maxSize : Nat) : PStr :=
  "Your task file would result in a job array with a maximum index of ".data ++
    natRepr maxIdx ++ ". This exceeds allowed array size of ".data ++ natRepr maxSize ++
    ". Please split the tasks into chunks that are smaller than ".data ++ natRepr maxSize ++
    ".".data

/-- The message written to stderr by the empty-task check (dSQ.py line 198). -/
def noTasksMsg (taskfileName : PStr) : PStr :=
  "No tasks found in ".data ++ taskfileName ++ "\n".data

inductive ScanErr where
  /-- The IndexError from indexing task_id_list at -1 on an empty list;
  uncaught, it kills the process with a traceback (exit status 1, but not the
  dedicated message). -/
  | indexError : ScanErr
  /-- A call of sys.exit with the given code after emitting the message. -/
  | sysExit : Nat → PStr → ScanErr
deriving DecidableEq

/-- The startup path of dSQ.py lines 189-200: take the last task index,
run the capacity check, run the empty-task check, and otherwise continue with
the task id list. -/
def taskScan (lines : List PStr) (maxArraySize : Nat) (taskfileName : PStr) :
    Except ScanErr (List Nat) :=
  match (task_id_list lines).getLast? with
  | none => .error .indexError
  | some maxIdx =>
    if maxIdx > maxArraySize then .error (.sysExit 1 (capacityMsg maxIdx maxArraySize))
    else if (task_id_list lines).length = 0 then .error (.sysExit 1 (noTasksMsg taskfileName))
    else .ok (task_id_list lines)

/-- Modelled from the spec (claim C8 states this classification): a line is a
task iff, after trimming the trailing newline only, it is non-empty and does
not start with a hash character. -/
def claimTrimNewline (l : PStr) : PStr :=
  if l.getLast? = some '\n' then l.dropLast else l

/-- Modelled from the spec: the classification claim C8 asserts. -/
def claimIsTask (line : PStr) : Prop :=
  claimTrimNewline line ≠ [] ∧ line.head? ≠ some '#'

instance (line : PStr) : Decidable (claimIsTask line) := by
  unfold claimIsTask; infer_instance

/-! ### Lemmas: decimal rendering and parsing -/

theorem digitsToNat_nil (acc : Nat) : digitsToNat acc [] = acc := rfl

theorem digitsToNat_cons (acc : Nat) (c : Char) (cs : List Char) :
    digitsToNat acc (c :: cs) = digitsToNat (acc * 10 + (c.toNat - 48)) cs := rfl

theorem digitsToNat_append (acc : Nat) (xs ys : List Char) :
    digitsToNat acc (xs ++ ys) = digitsToNat (digitsToNat acc xs) ys := by
  induction xs generalizing acc with
  | nil => rfl
  | cons c cs ih => rw [List.cons_append, digitsToNat_cons, digitsToNat_cons, ih]

theorem digitChar_toNat {d : Nat} (h : d < 10) : (Nat.digitChar d).toNat - 48 = d := by
  have hball : ∀ d < 10, (Nat.digitChar d).toNat - 48 = d := by decide
  exact hball d h

theorem digitChar_isDigit {d : Nat} (h : d < 10) : (Nat.digitChar d).isDigit = true := by
  have hball : ∀ d < 10, (Nat.digitChar d).isDigit = true := by decide
  exact hball d h

theorem natReprA_ne_nil : ∀ (f n : Nat), n < f → natReprA f n ≠ []
  | 0, n, h => absurd h (Nat.not_lt_zero n)
  | f + 1, n, _ => by
    unfold natReprA
    split
    · simp
    · simp

theorem natRepr_ne_nil (n : Nat) : natRepr n ≠ [] :=
  natReprA_ne_nil (n + 1) n (Nat.lt_succ_self n)

theorem natReprA_digits : ∀ (f n : Nat), n < f → ∀ c ∈ natReprA f n, c.isDigit = true := by
  intro f
  induction f with
  | zero => intro n h; exact absurd h (Nat.not_lt_zero n)
  | succ f ih =>
    intro n hn c hc
    unfold natReprA at hc
    by_cases h10 : n < 10
    · rw [if_pos h10] at hc
      simp only [List.mem_singleton] at hc
      subst hc
      exact digitChar_isDigit h10
    · rw [if_neg h10] at hc
      have hdiv : n / 10 < f := by
        have h1 : n / 10 < n := Nat.div_lt_self (by omega) (by omega)
        omega
      rcases List.mem_append.1 hc with hc1 | hc2
      · exact ih (n / 10) hdiv c hc1
      · simp only [List.mem_singleton] at hc2
        subst hc2
        exact digitChar_isDigit (Nat.mod_lt n (by omega))

theorem natRepr_digits (n : Nat) : ∀ c ∈ natRepr n, c.isDigit = true :=
  natReprA_digits (n + 1) n (Nat.lt_succ_self n)

theorem natReprA_val : ∀ (f n acc : Nat), n < f →
    digitsToNat acc (natReprA f n) = acc * 10 ^ (natReprA f n).length + n := by
  intro f
  induction f with
  | zero => intro n acc h; exact absurd h (Nat.not_lt_zero n)
  | succ f ih =>
    intro n acc hn
    unfold natReprA
    by_cases h10 : n < 10
    · rw [if_pos h10, digitsToNat_cons, digitsToNat_nil, digitChar_toNat h10]
      simp only [List.length_singleton, pow_one]
    · rw [if_neg h10]
      have hdiv : n / 10 < f := by
        have h1 : n / 10 < n := Nat.div_lt_self (by omega) (by omega)
        omega
      rw [digitsToNat_append, ih (n / 10) acc hdiv, digitsToNat_cons, digitsToNat_nil,
        digitChar_toNat (Nat.mod_lt n (by omega))]
      simp only [List.length_append, List.length_singleton]
      rw [pow_succ, ← mul_assoc]
      generalize acc * 10 ^ (natReprA f (n / 10)).length = Y
      omega

theorem natRepr_val (n : Nat) : digitsToNat 0 (natRepr n) = n := by
  have h := natReprA_val (n + 1) n 0 (Nat.lt_succ_self n)
  simpa using h

theorem takeDrop_append_of_all {p : Char → Bool} :
    ∀ (ds rest : List Char), (∀ c ∈ ds, p c = true) →
      (∀ c, rest.head? = some c → p c = false) →
      (ds ++ rest).takeWhile p = ds ∧ (ds ++ rest).dropWhile p = rest := by
  intro ds
  induction ds with
  | nil =>
    intro rest _ hr
    cases rest with
    | nil => exact ⟨rfl, rfl⟩
    | cons c r =>
      have hc : p c = false := hr c rfl
      constructor
      · simp [List.takeWhile_cons, hc]
      · simp [List.dropWhile_cons, hc]
  | cons d ds ih =>
    intro rest hall hr
    have hd : p d = true := hall d (List.mem_cons_self d ds)
    have htail := ih rest (fun c hc => hall c (List.mem_cons_of_mem d hc)) hr
    constructor
    · simp [List.takeWhile_cons, hd, htail.1]
    · simp [List.dropWhile_cons, hd, htail.2]

theorem parseNatLead_repr (n : Nat) (rest : List Char)
    (hr : ∀ c, rest.head? = some c → c.isDigit = false) :
    parseNatLead (natRepr n ++ rest) = some (n, rest) := by
  obtain ⟨ht, hd⟩ := takeDrop_append_of_all (natRepr n) rest (natRepr_digits n) hr
  unfold parseNatLead
  rw [ht, hd, if_neg (natRepr_ne_nil n), natRepr_val]

theorem isDigit_ne_dash {c : Char} (h : c.isDigit = true) : c ≠ '-' := by
  intro h2
  subst h2
  simp at h

theorem parseIntLead_cons (c : Char) (cs : List Char) :
    parseIntLead (c :: cs) =
      if c = '-' then (parseNatLead cs).map (fun p => (-(p.1 : Int), p.2))
      else (parseNatLead (c :: cs)).map (fun p => ((p.1 : Int), p.2)) := rfl

theorem parseIntLead_repr (a : Int) (rest : List Char)
    (hr : ∀ c, rest.head? = some c → c.isDigit = false) :
    parseIntLead (intRepr a ++ rest) = some (a, rest) := by
  unfold intRepr
  by_cases ha : a < 0
  · rw [if_pos ha, List.cons_append, parseIntLead_cons, if_pos rfl,
      parseNatLead_repr a.natAbs rest hr]
    have habs : -((a.natAbs : Nat) : Int) = a := by omega
    show some (-((a.natAbs : Nat) : Int), rest) = some (a, rest)
    rw [habs]
  · rw [if_neg ha]
    obtain ⟨c, cs, hcons⟩ := List.exists_cons_of_ne_nil (natRepr_ne_nil a.toNat)
    have hcdig : c.isDigit = true := by
      apply natRepr_digits a.toNat
      rw [hcons]
      exact List.mem_cons_self c cs
    rw [hcons, List.cons_append, parseIntLead_cons, if_neg (isDigit_ne_dash hcdig),
      ← List.cons_append, ← hcons, parseNatLead_repr a.toNat rest hr]
    have htn : ((a.toNat : Nat) : Int) = a := by omega
    show some (((a.toNat : Nat) : Int), rest) = some (a, rest)
    rw [htn]

theorem mem_intRepr {c : Char} {a : Int} (h : c ∈ intRepr a) : c = '-' ∨ c.isDigit = true := by
  unfold intRepr at h
  by_cases ha : a < 0
  · rw [if_pos ha] at h
    rcases List.mem_cons.1 h with h1 | h2
    · exact Or.inl h1
    · exact Or.inr (natRepr_digits a.natAbs c h2)
  · rw [if_neg ha] at h
    exact Or.inr (natRepr_digits a.toNat c h)

theorem intRepr_ne_nil (a : Int) : intRepr a ≠ [] := by
  unfold intRepr
  by_cases ha : a < 0
  · rw [if_pos ha]; simp
  · rw [if_neg ha]; exact natRepr_ne_nil a.toNat

/-! ### Lemmas: intRange, parseComponent, decodeComponents -/

theorem intRange_self (a : Int) : intRange a a = [a] := by
  unfold intRange
  have h1 : (a - a).toNat + 1 = 1 := by omega
  have h2 : List.range 1 = [0] := rfl
  rw [h1, h2]
  simp

theorem intRange_succ {a b : Int} (h : a ≤ b) : intRange a b ++ [b + 1] = intRange a (b + 1) := by
  unfold intRange
  have h1 : (b + 1 - a).toNat = (b - a).toNat + 1 := by omega
  rw [h1]
  conv_rhs => rw [List.range_succ]
  rw [List.map_append]
  congr 1
  simp only [List.map_cons, List.map_nil]
  have h3 : a + (((b - a).toNat + 1 : Nat) : Int) = b + 1 := by
    push_cast
    omega
  rw [h3]

theorem parseComponent_renderPair (p : Int × Int) :
    parseComponent (renderPair p) = some (intRange p.1 p.2) := by
  obtain ⟨x, y⟩ := p
  by_cases h : x = y
  · subst h
    have hrp : renderPair (x, x) = intRepr x := by
      unfold renderPair
      simp
    have h1 : parseIntLead (intRepr x) = some (x, []) := by
      have h2 := parseIntLead_repr x [] (by intro c hc; simp at hc)
      simpa using h2
    rw [hrp]
    unfold parseComponent
    rw [h1, intRange_self]
  · have hrp : renderPair (x, y) = intRepr x ++ '-' :: intRepr y := by
      unfold renderPair
      simp [h]
    have hr : ∀ c, ('-' :: intRepr y).head? = some c → c.isDigit = false := by
      intro c hc
      simp only [List.head?_cons, Option.some.injEq] at hc
      subst hc
      decide
    have h1 : parseIntLead (intRepr x ++ '-' :: intRepr y) = some (x, '-' :: intRepr y) :=
      parseIntLead_repr x _ hr
    have h2 : parseIntLead (intRepr y) = some (y, []) := by
      have h3 := parseIntLead_repr y [] (by intro c hc; simp at hc)
      simpa using h3
    rw [hrp]
    unfold parseComponent
    rw [h1]
    dsimp only
    rw [if_pos rfl, h2]
    dsimp only
    rw [if_pos rfl]

theorem decodeComponents_map (prs : List (Int × Int)) :
    decodeComponents (prs.map renderPair) = some (expandPairs prs) := by
  induction prs with
  | nil => rfl
  | cons p ps ih =>
    rw [List.map_cons]
    unfold decodeComponents
    rw [parseComponent_renderPair, ih]
    rfl

/-! ### Lemmas: splitOnChar and joinWith -/

theorem splitOnChar_cons (sep c : Char) (cs : List Char) :
    splitOnChar sep (c :: cs) =
      match splitOnChar sep cs with
      | [] => [[c]]
      | p :: ps => if c = sep then [] :: p :: ps else (c :: p) :: ps := rfl

theorem splitOnChar_ne_nil (sep : Char) (l : List Char) : splitOnChar sep l ≠ [] := by
  induction l with
  | nil => simp [splitOnChar]
  | cons c cs ih =>
    rw [splitOnChar_cons]
    cases h : splitOnChar sep cs with
    | nil => simp
    | cons p ps =>
      dsimp only
      split <;> simp

theorem splitOnChar_no_sep {sep : Char} : ∀ {l : List Char}, sep ∉ l → splitOnChar sep l = [l] := by
  intro l
  induction l with
  | nil => intro _; rfl
  | cons c cs ih =>
    intro h
    have hc : c ≠ sep := fun he => h (he ▸ List.mem_cons_self c cs)
    have hcs : sep ∉ cs := fun he => h (List.mem_cons_of_mem c he)
    rw [splitOnChar_cons, ih hcs]
    dsimp only
    rw [if_neg hc]

theorem splitOnChar_append_sep {sep : Char} :
    ∀ (p r : List Char), sep ∉ p → splitOnChar sep (p ++ sep :: r) = p :: splitOnChar sep r := by
  intro p
  induction p with
  | nil =>
    intro r _
    rw [List.nil_append]
    obtain ⟨q, qs, hq⟩ := List.exists_cons_of_ne_nil (splitOnChar_ne_nil sep r)
    rw [splitOnChar_cons, hq]
    dsimp only
    rw [if_pos rfl]
  | cons c p ih =>
    intro r h
    have hc : c ≠ sep := fun he => h (he ▸ List.mem_cons_self c p)
    have hp : sep ∉ p := fun he => h (List.mem_cons_of_mem c he)
    rw [List.cons_append, splitOnChar_cons, ih r hp]
    dsimp only
    rw [if_neg hc]

theorem joinWith_pair (sep : Char) (p q : List Char) (ps : List (List Char)) :
    joinWith sep (p :: q :: ps) = p ++ sep :: joinWith sep (q :: ps) := rfl

theorem splitOnChar_joinWith {sep : Char} :
    ∀ (ps : List (List Char)) (p : List Char), (∀ q ∈ p :: ps, sep ∉ q) →
      splitOnChar sep (joinWith sep (p :: ps)) = p :: ps := by
  intro ps
  induction ps with
  | nil =>
    intro p h
    simpa [joinWith] using splitOnChar_no_sep (h p (List.mem_cons_self p []))
  | cons q qs ih =>
    intro p h
    rw [joinWith_pair, splitOnChar_append_sep p _ (h p (List.mem_cons_self p (q :: qs)))]
    rw [ih q (fun r hr => h r (List.mem_cons_of_mem p hr))]

theorem joinWith_ne_nil {sep : Char} {p : List Char} (ps : List (List Char)) (hp : p ≠ []) :
    joinWith sep (p :: ps) ≠ [] := by
  cases ps with
  | nil => simpa [joinWith] using hp
  | cons q qs => simp [joinWith]

/-! ### Lemmas: the collapse of runs -/

theorem collapseAux_nil (s p : Int) : collapseAux s p [] = [(s, p)] := rfl

theorem collapseAux_cons (s p t : Int) (ts : List Int) :
    collapseAux s p (t :: ts) =
      if t = p + 1 then collapseAux s t ts else (s, p) :: collapseAux t t ts := rfl

theorem collapseAux_shape :
    ∀ (ts : List Int) (s p : Int), ∃ e rest, collapseAux s p ts = (s, e) :: rest ∧ p ≤ e := by
  intro ts
  induction ts with
  | nil => exact fun s p => ⟨p, [], rfl, le_refl p⟩
  | cons t ts ih =>
    intro s p
    rw [collapseAux_cons]
    by_cases h : t = p + 1
    · rw [if_pos h]
      obtain ⟨e, rest, heq, hle⟩ := ih s t
      exact ⟨e, rest, heq, by omega⟩
    · rw [if_neg h]
      exact ⟨p, collapseAux t t ts, rfl, le_refl p⟩

theorem expandPairs_cons (p : Int × Int) (ps : List (Int × Int)) :
    expandPairs (p :: ps) = intRange p.1 p.2 ++ expandPairs ps := rfl

theorem expand_collapseAux :
    ∀ (ts : List Int) (s p : Int), s ≤ p →
      expandPairs (collapseAux s p ts) = intRange s p ++ ts := by
  intro ts
  induction ts with
  | nil =>
    intro s p _
    rw [collapseAux_nil, expandPairs_cons]
    rfl
  | cons t ts ih =>
    intro s p hsp
    rw [collapseAux_cons]
    by_cases h : t = p + 1
    · rw [if_pos h, ih s t (by omega)]
      subst h
      rw [← intRange_succ hsp, List.append_assoc]
      rfl
    · rw [if_neg h, expandPairs_cons, ih t t (le_refl t), intRange_self]
      rfl

theorem expand_collapse (S : List Int) : expandPairs (collapse_ranges S) = S := by
  cases S with
  | nil => rfl
  | cons s ts =>
    show expandPairs (collapseAux s s ts) = s :: ts
    rw [expand_collapseAux ts s s (le_refl s), intRange_self]
    rfl

theorem collapseAux_bounds :
    ∀ (ts : List Int) (s p : Int), s ≤ p → ∀ q ∈ collapseAux s p ts, q.1 ≤ q.2 := by
  intro ts
  induction ts with
  | nil =>
    intro s p hsp q hq
    rw [collapseAux_nil, List.mem_singleton] at hq
    subst hq
    exact hsp
  | cons t ts ih =>
    intro s p hsp q hq
    rw [collapseAux_cons] at hq
    by_cases h : t = p + 1
    · rw [if_pos h] at hq
      exact ih s t (by omega) q hq
    · rw [if_neg h] at hq
      rcases List.mem_cons.1 hq with h1 | h2
      · subst h1; exact hsp
      · exact ih t t (le_refl t) q h2

theorem collapse_bounds (S : List Int) : ∀ q ∈ collapse_ranges S, q.1 ≤ q.2 := by
  cases S with
  | nil => intro q hq; simp [collapse_ranges] at hq
  | cons s ts => exact collapseAux_bounds ts s s (le_refl s)

theorem chainLt_mem :
    ∀ {l : List Int} {t x : Int}, List.Chain' (· < ·) (t :: l) → x ∈ l → t < x := by
  intro l
  induction l with
  | nil => intro t x _ hx; simp at hx
  | cons u l ih =>
    intro t x hch hx
    have h1 : t < u := (List.chain'_cons.1 hch).1
    have h2 : List.Chain' (· < ·) (u :: l) := (List.chain'_cons.1 hch).2
    rcases List.mem_cons.1 hx with h3 | h4
    · subst h3; exact h1
    · exact lt_trans h1 (ih h2 h4)

theorem collapseAux_gaps :
    ∀ (ts : List Int) (s p : Int), List.Chain' (· < ·) (p :: ts) →
      List.Chain' (fun x y : Int × Int => x.2 + 1 < y.1) (collapseAux s p ts) := by
  intro ts
  induction ts with
  | nil => intro s p _; rw [collapseAux_nil]; exact List.chain'_singleton (s, p)
  | cons t ts ih =>
    intro s p hch
    have hpt : p < t := (List.chain'_cons.1 hch).1
    have hch2 : List.Chain' (· < ·) (t :: ts) := (List.chain'_cons.1 hch).2
    rw [collapseAux_cons]
    by_cases h : t = p + 1
    · rw [if_pos h]
      exact ih s t hch2
    · rw [if_neg h]
      obtain ⟨e, rest, heq, _⟩ := collapseAux_shape ts t t
      rw [List.chain'_cons']
      constructor
      · intro y hy
        rw [heq] at hy
        simp only [List.head?_cons, Option.mem_def, Option.some.injEq] at hy
        subst hy
        show p + 1 < t
        omega
      · exact ih t t hch2

theorem collapseAux_starts :
    ∀ (ts : List Int) (s p : Int), s ≤ p → List.Chain' (· < ·) (p :: ts) →
      List.Chain' (fun x y : Int × Int => x.1 < y.1) (collapseAux s p ts) := by
  intro ts
  induction ts with
  | nil => intro s p _ _; rw [collapseAux_nil]; exact List.chain'_singleton (s, p)
  | cons t ts ih =>
    intro s p hsp hch
    have hpt : p < t := (List.chain'_cons.1 hch).1
    have hch2 : List.Chain' (· < ·) (t :: ts) := (List.chain'_cons.1 hch).2
    rw [collapseAux_cons]
    by_cases h : t = p + 1
    · rw [if_pos h]
      exact ih s t (by omega) hch2
    · rw [if_neg h]
      obtain ⟨e, rest, heq, _⟩ := collapseAux_shape ts t t
      rw [List.chain'_cons']
      constructor
      · intro y hy
        rw [heq] at hy
        simp only [List.head?_cons, Option.mem_def, Option.some.injEq] at hy
        subst hy
        show s < t
        omega
      · exact ih t t (le_refl t) hch2

theorem collapseAux_merged :
    ∀ (ts : List Int) (s p a : Int), s ≤ p → List.Chain' (· < ·) (p :: ts) →
      ((s ≤ a ∧ a < p) ∨ (a = p ∧ (p + 1) ∈ ts) ∨ (a ∈ ts ∧ a + 1 ∈ ts)) →
      ∃ q ∈ collapseAux s p ts, q.1 ≤ a ∧ a + 1 ≤ q.2 := by
  intro ts
  induction ts with
  | nil =>
    intro s p a hsp _ hcase
    rcases hcase with ⟨h1, h2⟩ | ⟨_, h2⟩ | ⟨h2, _⟩
    · exact ⟨(s, p), by rw [collapseAux_nil]; exact List.mem_singleton.2 rfl, h1, by omega⟩
    · simp at h2
    · simp at h2
  | cons t ts ih =>
    intro s p a hsp hch hcase
    have hpt : p < t := (List.chain'_cons.1 hch).1
    have hch2 : List.Chain' (· < ·) (t :: ts) := (List.chain'_cons.1 hch).2
    rw [collapseAux_cons]
    by_cases h : t = p + 1
    · rw [if_pos h]
      apply ih s t a (by omega) hch2
      rcases hcase with ⟨h1, h2⟩ | ⟨h1, _⟩ | ⟨h1, h2⟩
      · exact Or.inl ⟨h1, by omega⟩
      · exact Or.inl ⟨by omega, by omega⟩
      · rcases List.mem_cons.1 h1 with h3 | h4
        · subst h3
          have h5 : a + 1 ∈ ts := by
            rcases List.mem_cons.1 h2 with h6 | h7
            · omega
            · exact h7
          exact Or.inr (Or.inl ⟨rfl, h5⟩)
        · have hta : t < a := chainLt_mem hch2 h4
          have h5 : a + 1 ∈ ts := by
            rcases List.mem_cons.1 h2 with h6 | h7
            · omega
            · exact h7
          exact Or.inr (Or.inr ⟨h4, h5⟩)
    · rw [if_neg h]
      rcases hcase with ⟨h1, h2⟩ | ⟨h1, h2⟩ | ⟨h1, h2⟩
      · exact ⟨(s, p), List.mem_cons_self _ _, h1, by omega⟩
      · exfalso
        rcases List.mem_cons.1 h2 with h3 | h4
        · omega
        · have := chainLt_mem hch2 h4
          omega
      · have hsub : ∃ q ∈ collapseAux t t ts, q.1 ≤ a ∧ a + 1 ≤ q.2 := by
          apply ih t t a (le_refl t) hch2
          rcases List.mem_cons.1 h1 with h3 | h4
          · subst h3
            have h5 : a + 1 ∈ ts := by
              rcases List.mem_cons.1 h2 with h6 | h7
              · omega
              · exact h7
            exact Or.inr (Or.inl ⟨rfl, h5⟩)
          · have hta : t < a := chainLt_mem hch2 h4
            have h5 : a + 1 ∈ ts := by
              rcases List.mem_cons.1 h2 with h6 | h7
              · omega
              · exact h7
            exact Or.inr (Or.inr ⟨h4, h5⟩)
        obtain ⟨q, hq, hq1, hq2⟩ := hsub
        exact ⟨q, List.mem_cons_of_mem _ hq, hq1, hq2⟩

theorem collapse_merged (S : List Int) (hS : List.Chain' (· < ·) S) :
    ∀ a : Int, a ∈ S → a + 1 ∈ S → ∃ q ∈ collapse_ranges S, q.1 ≤ a ∧ a + 1 ≤ q.2 := by
  cases S with
  | nil => intro a ha; simp at ha
  | cons s ts =>
    intro a ha ha1
    show ∃ q ∈ collapseAux s s ts, q.1 ≤ a ∧ a + 1 ≤ q.2
    apply collapseAux_merged ts s s a (le_refl s) hS
    rcases List.mem_cons.1 ha with h1 | h2
    · subst h1
      have h3 : a + 1 ∈ ts := by
        rcases List.mem_cons.1 ha1 with h4 | h5
        · omega
        · exact h5
      exact Or.inr (Or.inl ⟨rfl, h3⟩)
    · have hsa : s < a := chainLt_mem hS h2
      have h3 : a + 1 ∈ ts := by
        rcases List.mem_cons.1 ha1 with h4 | h5
        · omega
        · exact h5
      exact Or.inr (Or.inr ⟨h2, h3⟩)

/-! ### Lemmas: piece shape of format_range -/

theorem renderPair_ne_nil (p : Int × Int) : renderPair p ≠ [] := by
  unfold renderPair
  by_cases h : p.1 ≠ p.2
  · rw [if_pos h]
    intro hc
    exact intRepr_ne_nil p.1 (List.append_eq_nil.1 hc).1
  · rw [if_neg h]
    exact intRepr_ne_nil p.1

theorem comma_not_mem_renderPair (p : Int × Int) : ',' ∉ renderPair p := by
  intro hc
  have hd : (',' : Char) = '-' ∨ (',' : Char).isDigit = true := by
    unfold renderPair at hc
    by_cases h : p.1 ≠ p.2
    · rw [if_pos h] at hc
      rcases List.mem_append.1 hc with h1 | h2
      · exact mem_intRepr h1
      · rcases List.mem_cons.1 h2 with h3 | h4
        · exact Or.inl h3
        · exact mem_intRepr h4
    · rw [if_neg h] at hc
      exact mem_intRepr hc
  rcases hd with h1 | h1 <;> simp at h1

/-! ### Claim theorems: the Range Encoder -/

/-- C1: for every strictly increasing sequence of integers `S`, decoding the
string produced by `format_range S` - expanding each `a-b` component to the
integers `a, a+1, ..., b` and each bare integer component to itself, in
left-to-right order - reconstructs exactly the sequence `S`, in order. -/
theorem format_range_decode_roundtrip (S : List Int) (_hS : List.Chain' (· < ·) S) :
    decodeRangeString (format_range S) = some S := by
  cases S with
  | nil => rfl
  | cons s ts =>
    obtain ⟨e, rest, heq, _⟩ := collapseAux_shape ts s s
    have hcr : collapse_ranges (s :: ts) = (s, e) :: rest := heq
    have hmap : (collapse_ranges (s :: ts)).map renderPair
        = renderPair (s, e) :: rest.map renderPair := by rw [hcr, List.map_cons]
    have hnosep : ∀ q ∈ renderPair (s, e) :: rest.map renderPair, ',' ∉ q := by
      rw [← hmap]
      intro q hq
      obtain ⟨pr, _, hq2⟩ := List.mem_map.1 hq
      rw [← hq2]
      exact comma_not_mem_renderPair pr
    have hjoin_ne : joinWith ',' ((collapse_ranges (s :: ts)).map renderPair) ≠ [] := by
      rw [hmap]
      exact joinWith_ne_nil _ (renderPair_ne_nil (s, e))
    show decodeRangeString ⟨joinWith ',' ((collapse_ranges (s :: ts)).map renderPair)⟩
        = some (s :: ts)
    unfold decodeRangeString
    dsimp only
    rw [if_neg hjoin_ne, hmap, splitOnChar_joinWith (rest.map renderPair) (renderPair (s, e)) hnosep,
      ← hmap, decodeComponents_map, expand_collapse]

/-- Witness for C1 at the concrete increasing sequence `[1,2,3,5,7,8,9]`. -/
theorem format_range_decode_roundtrip_witness :
    List.Chain' (· < ·) ([1, 2, 3, 5, 7, 8, 9] : List Int) ∧
    decodeRangeString (format_range [1, 2, 3, 5, 7, 8, 9]) = some [1, 2, 3, 5, 7, 8, 9] :=
  ⟨by norm_num [List.chain'_cons, List.chain'_singleton],
   format_range_decode_roundtrip [1, 2, 3, 5, 7, 8, 9]
     (by norm_num [List.chain'_cons, List.chain'_singleton])⟩

/-- C2: on a strictly increasing input, the pairs of `collapse_ranges` are
maximal: two consecutive input integers `a` and `a+1` always land in one and
the same pair, two consecutive emitted pairs `(s1,e1), (s2,e2)` always satisfy
`s2 > e1 + 1`, and the pairs are emitted in ascending order of start. -/
theorem collapse_ranges_maximal (S : List Int) (hS : List.Chain' (· < ·) S) :
    (∀ a : Int, a ∈ S → a + 1 ∈ S → ∃ q ∈ collapse_ranges S, q.1 ≤ a ∧ a + 1 ≤ q.2) ∧
    List.Chain' (fun x y : Int × Int => x.2 + 1 < y.1) (collapse_ranges S) ∧
    List.Chain' (fun x y : Int × Int => x.1 < y.1) (collapse_ranges S) := by
  refine ⟨collapse_merged S hS, ?_, ?_⟩
  · cases S with
    | nil => exact List.chain'_nil
    | cons s ts =>
      show List.Chain' (fun x y : Int × Int => x.2 + 1 < y.1) (collapseAux s s ts)
      exact collapseAux_gaps ts s s hS
  · cases S with
    | nil => exact List.chain'_nil
    | cons s ts =>
      show List.Chain' (fun x y : Int × Int => x.1 < y.1) (collapseAux s s ts)
      exact collapseAux_starts ts s s (le_refl s) hS

/-- Witness for C2 at the concrete increasing sequence `[1,2,5]`. -/
theorem collapse_ranges_maximal_witness :
    List.Chain' (fun x y : Int × Int => x.2 + 1 < y.1) (collapse_ranges [1, 2, 5]) ∧
    List.Chain' (fun x y : Int × Int => x.1 < y.1) (collapse_ranges [1, 2, 5]) :=
  ⟨(collapse_ranges_maximal [1, 2, 5]
      (by norm_num [List.chain'_cons, List.chain'_singleton])).2.1,
   (collapse_ranges_maximal [1, 2, 5]
      (by norm_num [List.chain'_cons, List.chain'_singleton])).2.2⟩

/-- C3: `format_range` renders each collapsed pair `(start, end)` as
`start-end` when the two differ and as the bare integer `start` when they are
equal, joining the pieces with commas; in particular
`format_range [1,2,3,5,7,8,9] = "1-3,5,7-9"` and `format_range [4] = "4"`. -/
theorem format_range_rendering :
    (∀ ts : List Int,
      format_range ts =
        ⟨joinWith ','
          ((collapse_ranges ts).map
            (fun p => if p.1 = p.2 then intRepr p.1 else intRepr p.1 ++ '-' :: intRepr p.2))⟩) ∧
    format_range [1, 2, 3, 5, 7, 8, 9] = "1-3,5,7-9" ∧
    format_range [4] = "4" := by
  refine ⟨?_, by decide, by decide⟩
  intro ts
  unfold format_range
  congr 2
  apply List.map_congr_left
  intro p _
  unfold renderPair
  by_cases h : p.1 = p.2
  · rw [if_neg (by simp [h]), if_pos h]
  · rw [if_pos h, if_neg h]

/-! ### Lemmas: the argument parser loop -/

theorem parseArgsLoop_one (m : OptionMap) (ex : List PStr) (arg : PStr) :
    parseArgsLoop m ex [arg] =
      if startsWithDD arg then
        match splitOnChar '=' arg with
        | [key, value] =>
          if key ∈ keys m then parseArgsLoop (setKey m key (.str value)) ex []
          else parseArgsLoop m (ex ++ [arg]) []
        | _ => .error .valueError
      else if startsWithD arg then .error .indexError
      else .error .sysExit := rfl

theorem parseArgsLoop_two (m : OptionMap) (ex : List PStr) (arg value : PStr)
    (rest2 : List PStr) :
    parseArgsLoop m ex (arg :: value :: rest2) =
      if startsWithDD arg then
        match splitOnChar '=' arg with
        | [key, value2] =>
          if key ∈ keys m then parseArgsLoop (setKey m key (.str value2)) ex (value :: rest2)
          else parseArgsLoop m (ex ++ [arg]) (value :: rest2)
        | _ => .error .valueError
      else if startsWithD arg then
        match flagLookup arg with
        | some longKey => parseArgsLoop (setKey m longKey (.str value)) ex rest2
        | none => parseArgsLoop m (ex ++ [arg ++ ' ' :: value]) rest2
      else .error .sysExit := rfl

theorem startsWithD_of_DD {s : PStr} (h : startsWithDD s = true) : startsWithD s = true := by
  cases s with
  | nil => simp [startsWithDD] at h
  | cons c cs =>
    cases cs with
    | nil => simp [startsWithDD] at h
    | cons c2 cs2 =>
      simp only [startsWithDD, Bool.and_eq_true, beq_iff_eq] at h
      simp [startsWithD, h.1]

theorem parseArgsLoop_long_known (m : OptionMap) (ex : List PStr) (key value : PStr)
    (rest : List PStr) (hdd : startsWithDD (key ++ '=' :: value) = true)
    (hk : '=' ∉ key) (hv : '=' ∉ value) (hmem : key ∈ keys m) :
    parseArgsLoop m ex ((key ++ '=' :: value) :: rest)
      = parseArgsLoop (setKey m key (.str value)) ex rest := by
  have hsplit : splitOnChar '=' (key ++ '=' :: value) = [key, value] := by
    rw [splitOnChar_append_sep key value hk, splitOnChar_no_sep hv]
  cases rest with
  | nil =>
    rw [parseArgsLoop_one, hdd, if_pos rfl, hsplit]
    dsimp only
    rw [if_pos hmem]
  | cons r rs =>
    rw [parseArgsLoop_two, hdd, if_pos rfl, hsplit]
    dsimp only
    rw [if_pos hmem]

theorem parseArgsLoop_short (m : OptionMap) (ex : List PStr) (flag value : PStr)
    (rest : List PStr) (h1 : startsWithDD flag = false) (h2 : startsWithD flag = true) :
    parseArgsLoop m ex (flag :: value :: rest) =
      match flagLookup flag with
      | some longKey => parseArgsLoop (setKey m longKey (.str value)) ex rest
      | none => parseArgsLoop m (ex ++ [flag ++ ' ' :: value]) rest := by
  rw [parseArgsLoop_two, h1]
  rw [if_neg (by simp), h2, if_pos rfl]

theorem parseArgsLoop_long_noeq (m : OptionMap) (ex : List PStr) (tok : PStr)
    (rest : List PStr) (hdd : startsWithDD tok = true) (hne : '=' ∉ tok) :
    parseArgsLoop m ex (tok :: rest) = .error .valueError := by
  cases rest with
  | nil => rw [parseArgsLoop_one, hdd, if_pos rfl, splitOnChar_no_sep hne]
  | cons r rs => rw [parseArgsLoop_two, hdd, if_pos rfl, splitOnChar_no_sep hne]

theorem parseArgsLoop_short_last (m : OptionMap) (ex : List PStr) (flag : PStr)
    (h1 : startsWithDD flag = false) (h2 : startsWithD flag = true) :
    parseArgsLoop m ex [flag] = .error .indexError := by
  rw [parseArgsLoop_one, h1]
  rw [if_neg (by simp), h2, if_pos rfl]

theorem parseArgsLoop_baddash (m : OptionMap) (ex : List PStr) (tok : PStr)
    (rest : List PStr) (h : startsWithD tok = false) :
    parseArgsLoop m ex (tok :: rest) = .error .sysExit := by
  have hdd : startsWithDD tok = false := by
    cases hc : startsWithDD tok with
    | false => rfl
    | true => rw [startsWithD_of_DD hc] at h; cases h
  cases rest with
  | nil =>
    rw [parseArgsLoop_one, hdd, h]
    rw [if_neg (by simp), if_neg (by simp)]
  | cons r rs =>
    rw [parseArgsLoop_two, hdd, h]
    rw [if_neg (by simp), if_neg (by simp)]

theorem parse_user_slurm_args_error (m : OptionMap) (args : List PStr) (e : ParseErr)
    (h : parseArgsLoop m [] args = .error e) : parse_user_slurm_args m args = .error e := by
  unfold parse_user_slurm_args
  rw [h]

theorem splitOnChar_length (sep : Char) : ∀ l : List Char,
    (splitOnChar sep l).length = l.count sep + 1 := by
  intro l
  induction l with
  | nil => rfl
  | cons c cs ih =>
    rw [splitOnChar_cons]
    obtain ⟨p, ps, hp⟩ := List.exists_cons_of_ne_nil (splitOnChar_ne_nil sep cs)
    rw [hp]
    rw [hp] at ih
    dsimp only
    by_cases h : c = sep
    · rw [if_pos h]
      have hcnt : (c :: cs).count sep = cs.count sep + 1 := by
        simp [List.count_cons, h]
      rw [hcnt]
      simp only [List.length_cons] at ih ⊢
      omega
    · rw [if_neg h]
      have hcnt : (c :: cs).count sep = cs.count sep := by
        simp [List.count_cons, h]
      rw [hcnt]
      simp only [List.length_cons] at ih ⊢
      omega

theorem splitOnChar_three {tok : PStr} (hcnt : 2 ≤ tok.count '=') :
    ∃ a b c tl, splitOnChar '=' tok = a :: b :: c :: tl := by
  have hlen := splitOnChar_length '=' tok
  rcases hsp : splitOnChar '=' tok with _ | ⟨a, _ | ⟨b, _ | ⟨c, tl⟩⟩⟩
  · exact absurd hsp (splitOnChar_ne_nil '=' tok)
  · exfalso
    rw [hsp] at hlen
    simp only [List.length_cons, List.length_nil] at hlen
    omega
  · exfalso
    rw [hsp] at hlen
    simp only [List.length_cons, List.length_nil] at hlen
    omega
  · exact ⟨a, b, c, tl, rfl⟩

theorem parseArgsLoop_long_multi (m : OptionMap) (ex : List PStr) (tok : PStr)
    (rest : List PStr) (hdd : startsWithDD tok = true) (hcnt : 2 ≤ tok.count '=') :
    parseArgsLoop m ex (tok :: rest) = .error .valueError := by
  obtain ⟨a, b, c, tl, hsp⟩ := splitOnChar_three hcnt
  cases rest with
  | nil => rw [parseArgsLoop_one, hdd, if_pos rfl, hsp]
  | cons r rs => rw [parseArgsLoop_two, hdd, if_pos rfl, hsp]

/-! ### Claim theorems: the Argument Merger -/

/-- C5: a long-form token `--key=value` whose key is among the default option
names overrides exactly that entry of the map and contributes nothing to the
passthrough list; in particular the tokens `--mem=4000 -c 2` against the
default `--cpus-per-task=1` yield `--cpus-per-task = 2` with `extra` holding
only `--mem=4000`. -/
theorem long_form_overrides_default (m : OptionMap) (ex : List PStr) (key value : PStr)
    (rest : List PStr) (hdd : startsWithDD (key ++ '=' :: value) = true)
    (hk : '=' ∉ key) (hv : '=' ∉ value) (hmem : key ∈ keys m) :
    parseArgsLoop m ex ((key ++ '=' :: value) :: rest)
      = parseArgsLoop (setKey m key (.str value)) ex rest ∧
    parse_user_slurm_args [("--cpus-per-task".data, .str "1".data)]
        ["--mem=4000".data, "-c".data, "2".data] =
      .ok [("--cpus-per-task".data, .str "2".data),
           ("extra".data, .strList ["--mem=4000".data])] :=
  ⟨parseArgsLoop_long_known m ex key value rest hdd hk hv hmem, rfl⟩

/-- Witness for C5: overriding the default `--cpus-per-task` with value `3`. -/
theorem long_form_overrides_default_witness :
    parseArgsLoop [("--cpus-per-task".data, PVal.str "1".data)] []
        [("--cpus-per-task".data ++ '=' :: "3".data)]
      = parseArgsLoop
          (setKey [("--cpus-per-task".data, PVal.str "1".data)] "--cpus-per-task".data
            (.str "3".data)) [] [] :=
  (long_form_overrides_default [("--cpus-per-task".data, PVal.str "1".data)] []
    "--cpus-per-task".data "3".data [] (by decide) (by decide) (by decide) (by decide)).1

/-- C6: a short-form flag consumes exactly the next token as its value, even if
that token itself starts with a dash; a flag in the fixed alias table
(`-J`, `-n`, `-c`) overrides the corresponding long option, any other flag is
appended to the passthrough list as the pair joined by one space. -/
theorem short_form_consumes_next_token (m : OptionMap) (ex : List PStr)
    (flag value : PStr) (rest : List PStr)
    (h1 : startsWithDD flag = false) (h2 : startsWithD flag = true) :
    (∀ longKey, flagLookup flag = some longKey →
        parseArgsLoop m ex (flag :: value :: rest)
          = parseArgsLoop (setKey m longKey (.str value)) ex rest) ∧
    (flagLookup flag = none →
        parseArgsLoop m ex (flag :: value :: rest)
          = parseArgsLoop m (ex ++ [flag ++ ' ' :: value]) rest) ∧
    flagLookup "-J".data = some "--job-name".data ∧
    flagLookup "-n".data = some "--ntasks".data ∧
    flagLookup "-c".data = some "--cpus-per-task".data := by
  refine ⟨?_, ?_, rfl, rfl, rfl⟩
  · intro longKey hlk
    rw [parseArgsLoop_short m ex flag value rest h1 h2, hlk]
  · intro hnone
    rw [parseArgsLoop_short m ex flag value rest h1 h2, hnone]

/-- Witness for C6: `-c` consumes the dash-leading next token `-5` as value. -/
theorem short_form_consumes_next_token_witness :
    parseArgsLoop [] [] ["-c".data, "-5".data]
      = parseArgsLoop (setKey [] "--cpus-per-task".data (.str "-5".data)) [] [] :=
  (short_form_consumes_next_token [] [] "-c".data "-5".data [] (by decide) (by decide)).1
    "--cpus-per-task".data rfl

/-- C7: the parser terminates fatally, returning an error rather than any
option map, on a long-form token with no equals sign (`ValueError`), on a
short-form flag that is the last token (`IndexError`), and on a token that
does not start with a dash (`sys.exit`). -/
theorem malformed_tokens_fatal (m : OptionMap) (rest : List PStr)
    (tLong tShort tBad : PStr)
    (hL1 : startsWithDD tLong = true) (hL2 : '=' ∉ tLong)
    (hS1 : startsWithDD tShort = false) (hS2 : startsWithD tShort = true)
    (hB : startsWithD tBad = false) :
    parse_user_slurm_args m (tLong :: rest) = .error .valueError ∧
    parse_user_slurm_args m [tShort] = .error .indexError ∧
    parse_user_slurm_args m (tBad :: rest) = .error .sysExit :=
  ⟨parse_user_slurm_args_error m _ _ (parseArgsLoop_long_noeq m [] tLong rest hL1 hL2),
   parse_user_slurm_args_error m _ _ (parseArgsLoop_short_last m [] tShort hS1 hS2),
   parse_user_slurm_args_error m _ _ (parseArgsLoop_baddash m [] tBad rest hB)⟩

/-- Witness for C7 at the tokens `--mem`, `-c` (trailing) and `oops`. -/
theorem malformed_tokens_fatal_witness :
    parse_user_slurm_args [] ["--mem".data] = .error .valueError ∧
    parse_user_slurm_args [] ["-c".data] = .error .indexError ∧
    parse_user_slurm_args [] ["oops".data] = .error .sysExit :=
  malformed_tokens_fatal [] [] "--mem".data "-c".data "oops".data
    (by decide) (by decide) (by decide) (by decide) (by decide)

/-- C10: a long-form token containing two or more equals signs makes the
parser fail with the unpacking `ValueError` instead of treating everything
after the first equals sign as the value. -/
theorem long_form_multi_equals_unpack_error (m : OptionMap) (ex : List PStr)
    (tok : PStr) (rest : List PStr)
    (hdd : startsWithDD tok = true) (hcnt : 2 ≤ tok.count '=') :
    parseArgsLoop m ex (tok :: rest) = .error .valueError ∧
    parse_user_slurm_args m (tok :: rest) = .error .valueError :=
  ⟨parseArgsLoop_long_multi m ex tok rest hdd hcnt,
   parse_user_slurm_args_error m _ _ (parseArgsLoop_long_multi m [] tok rest hdd hcnt)⟩

/-- Witness for C10 at the token `--a=b=c`. -/
theorem long_form_multi_equals_unpack_error_witness :
    parseArgsLoop [] [] ["--a=b=c".data] = .error .valueError ∧
    parse_user_slurm_args [] ["--a=b=c".data] = .error .valueError :=
  long_form_multi_equals_unpack_error [] [] "--a=b=c".data [] (by decide) (by decide)

/-! ### Lemmas: the task scan -/

theorem taskIdsFrom_nil (n : Nat) : taskIdsFrom n [] = [] := rfl

theorem taskIdsFrom_cons (n : Nat) (l : PStr) (ls : List PStr) :
    taskIdsFrom n (l :: ls) =
      if taskLine l then n :: taskIdsFrom (n + 1) ls else taskIdsFrom (n + 1) ls := rfl

theorem startsWithHash_iff (l : PStr) : startsWithHash l = true ↔ l.head? = some '#' := by
  cases l with
  | nil => simp [startsWithHash]
  | cons c cs => simp [startsWithHash]

theorem taskLine_iff (line : PStr) :
    taskLine line = true ↔ (rstrip line ≠ [] ∧ line.head? ≠ some '#') := by
  rw [taskLine]
  rw [Bool.not_eq_true']
  rw [Bool.or_eq_false_iff]
  constructor
  · rintro ⟨h1, h2⟩
    refine ⟨?_, ?_⟩
    · intro hc
      rw [hc] at h2
      simp at h2
    · intro hc
      rw [← startsWithHash_iff] at hc
      rw [hc] at h1
      cases h1
  · rintro ⟨h1, h2⟩
    refine ⟨?_, ?_⟩
    · cases hc : startsWithHash line with
      | false => rfl
      | true => exact absurd ((startsWithHash_iff line).1 hc) h2
    · cases hc : rstrip line == [] with
      | false => rfl
      | true => exact absurd (by simpa using hc) h1

theorem mem_taskIdsFrom :
    ∀ (ls : List PStr) (n i : Nat),
      i ∈ taskIdsFrom n ls ↔
        ∃ j, ∃ h : j < ls.length, i = n + j ∧ taskLine (ls.get ⟨j, h⟩) = true := by
  intro ls
  induction ls with
  | nil =>
    intro n i
    rw [taskIdsFrom_nil]
    simp
  | cons l ls ih =>
    intro n i
    rw [taskIdsFrom_cons]
    by_cases hl : taskLine l = true
    · rw [if_pos hl]
      constructor
      · intro hmem
        rcases List.mem_cons.1 hmem with h1 | h2
        · exact ⟨0, Nat.succ_pos ls.length, by omega, hl⟩
        · obtain ⟨j, hj, hij, htask⟩ := (ih (n + 1) i).1 h2
          exact ⟨j + 1, Nat.succ_lt_succ hj, by omega, htask⟩
      · rintro ⟨j, hj, hij, htask⟩
        cases j with
        | zero => exact List.mem_cons.2 (Or.inl (by omega))
        | succ j =>
          refine List.mem_cons.2 (Or.inr ((ih (n + 1) i).2 ⟨j, Nat.lt_of_succ_lt_succ hj, by omega, htask⟩))
    · rw [if_neg hl]
      constructor
      · intro hmem
        obtain ⟨j, hj, hij, htask⟩ := (ih (n + 1) i).1 hmem
        exact ⟨j + 1, Nat.succ_lt_succ hj, by omega, htask⟩
      · rintro ⟨j, hj, hij, htask⟩
        cases j with
        | zero => exact absurd htask hl
        | succ j =>
          exact (ih (n + 1) i).2 ⟨j, Nat.lt_of_succ_lt_succ hj, by omega, htask⟩

/-! ### Claim theorems: task classification and the startup scan -/

/-- C8 (amended): a line is classified as a task iff it does not start with a
hash character and is non-empty after trimming ALL trailing whitespace
(Python rstrip: spaces and tabs as well as the newline); the TaskIndex of a
task line is its zero-based position among all lines of the file, comments
and blanks included in the count. -/
theorem task_classification (lines : List PStr) (line : PStr) (i : Nat) :
    (taskLine line = true ↔ (rstrip line ≠ [] ∧ line.head? ≠ some '#')) ∧
    (i ∈ task_id_list lines ↔ ∃ h : i < lines.length, taskLine (lines.get ⟨i, h⟩) = true) := by
  refine ⟨taskLine_iff line, ?_⟩
  rw [task_id_list, mem_taskIdsFrom lines 0 i]
  constructor
  · rintro ⟨j, hj, hij, htask⟩
    have hji : j = i := by omega
    subst hji
    exact ⟨hj, htask⟩
  · rintro ⟨h, htask⟩
    exact ⟨i, h, by omega, htask⟩

/-- Witness for C8 at a concrete line and file. -/
theorem task_classification_witness :
    (taskLine "a\n".data = true ↔ (rstrip "a\n".data ≠ [] ∧ "a\n".data.head? ≠ some '#')) ∧
    (0 ∈ task_id_list ["a\n".data] ↔
      ∃ h : 0 < (["a\n".data] : List PStr).length,
        taskLine ((["a\n".data] : List PStr).get ⟨0, h⟩) = true) :=
  task_classification ["a\n".data] "a\n".data 0

/-- C8 counterexample: a line of three spaces and a newline is non-empty after
trimming only the trailing newline and does not start with a hash, so the
claimed classification counts it as a task; the code strips all trailing
whitespace and does not. -/
theorem task_classification_counterexample :
    claimIsTask "   \n".data ∧ taskLine "   \n".data = false :=
  ⟨by decide, by decide⟩

/-- C4 (the code, not the claim): on a task file with zero qualifying lines
the startup scan terminates with the uncaught IndexError raised by
`task_id_list[-1]`, not with the dedicated empty-task-set message and
`sys.exit(1)` that only come later in the file. -/
theorem empty_taskfile_index_error :
    taskScan ["# comment\n".data, "\n".data] 10000 "tasks.txt".data = .error .indexError ∧
    task_id_list ["# comment\n".data, "\n".data] = [] :=
  ⟨rfl, rfl⟩

/-- C9: when the maximum task-line index exceeds the configured maximum array
size the scan stops with `sys.exit(1)` and a message containing both the
offending index and the ceiling; when it does not exceed it, the check lets
processing continue. -/
theorem capacity_check (lines : List PStr) (maxArraySize : Nat) (taskfileName : PStr)
    (m : Nat) (hlast : (task_id_list lines).getLast? = some m) :
    (m > maxArraySize →
      taskScan lines maxArraySize taskfileName
          = .error (.sysExit 1 (capacityMsg m maxArraySize)) ∧
      (∃ u w, capacityMsg m maxArraySize = u ++ natRepr m ++ w) ∧
      (∃ u w, capacityMsg m maxArraySize = u ++ natRepr maxArraySize ++ w)) ∧
    (m ≤ maxArraySize →
      taskScan lines maxArraySize taskfileName = .ok (task_id_list lines)) := by
  have hne : ¬((task_id_list lines).length = 0) := by
    intro h0
    rw [List.length_eq_zero.1 h0] at hlast
    simp at hlast
  constructor
  · intro hgt
    refine ⟨?_, ?_, ?_⟩
    · unfold taskScan
      rw [hlast]
      dsimp only
      rw [if_pos hgt]
    · refine ⟨"Your task file would result in a job array with a maximum index of ".data,
        ". This exceeds allowed array size of ".data ++ natRepr maxArraySize ++
          ". Please split the tasks into chunks that are smaller than ".data ++
          natRepr maxArraySize ++ ".".data, ?_⟩
      unfold capacityMsg
      simp only [List.append_assoc]
    · refine ⟨"Your task file would result in a job array with a maximum index of ".data ++
        natRepr m ++ ". This exceeds allowed array size of ".data,
        ". Please split the tasks into chunks that are smaller than ".data ++
          natRepr maxArraySize ++ ".".data, ?_⟩
      unfold capacityMsg
      simp only [List.append_assoc]
  · intro hle
    unfold taskScan
    rw [hlast]
    dsimp only
    rw [if_neg (by omega), if_neg hne]

/-- Witness for C9: ceiling 0 rejects the two-task file, ceiling 5 accepts it. -/
theorem capacity_check_witness :
    taskScan ["a\n".data, "b\n".data] 0 "t.txt".data
        = .error (.sysExit 1 (capacityMsg 1 0)) ∧
    taskScan ["a\n".data, "b\n".data] 5 "t.txt".data
        = .ok (task_id_list ["a\n".data, "b\n".data]) :=
  ⟨((capacity_check ["a\n".data, "b\n".data] 0 "t.txt".data 1 (by decide)).1
      (by decide)).1,
   (capacity_check ["a\n".data, "b\n".data] 5 "t.txt".data 1 (by decide)).2 (by decide)⟩

end DSQ
